import Mathlib

/-!
Shallow embedding of `src/recommender.py` (hybrid_reco_demo).

Conventions of the embedding:
* Python `int` item ids are modelled as `ℤ`; Python `float` scores as `ℚ`
  (all arithmetic used by the engine is field arithmetic on finitely many values).
* A Python `dict` is modelled as an association list with distinct keys,
  in insertion order; `d.get(k, default)` is `dictGetD`, `d.get(k)` is `dictGet`.
* The string tags `"region"` / `"global"` and `"rules"` / `"popularity"`
  are modelled by the inductive types `PopSrc` and `RecSource`.
* Database access (`psycopg2`) is external: fetch results are inputs of the
  model, and a fallible fetch is an `Except DBError` value.
-/

/-- Source tag of a popularity row: the Python strings `"region"` / `"global"`. -/
inductive PopSrc where
  | region
  | global
deriving DecidableEq, Repr

/-- Warm-start output source tag: the Python strings `"rules"` / `"popularity"`. -/
inductive RecSource where
  | rules
  | popularity
deriving DecidableEq, Repr

/-- The `turn` variable of `interleave_pairs` (`"region"` or `"global"`). -/
inductive Turn where
  | region
  | global
deriving DecidableEq, Repr

/-- Python `d.get(k)` on a dict modelled as an association list (first match). -/
def dictGet {β : Type} (d : List (ℤ × β)) (k : ℤ) : Option β :=
  match d with
  | [] => none
  | (k', v) :: rest => if k' = k then some v else dictGet rest k

/-- Python `d.get(k, default)`. -/
def dictGetD {β : Type} (d : List (ℤ × β)) (k : ℤ) (default : β) : β :=
  (dictGet d k).getD default

/-- Python `min` of a non-empty list (the `[]` case is never used by the code). -/
def listMin : List ℚ → ℚ
  | [] => 0
  | v :: vs => vs.foldl min v

/-- Python `max` of a non-empty list (the `[]` case is never used by the code). -/
def listMax : List ℚ → ℚ
  | [] => 0
  | v :: vs => vs.foldl max v

/-- The cold-start min-max normalizer `minmax_norm` defined inside
`HybridRecommender.recommend` (src/recommender.py lines 285–291):
empty input gives `{}`; when `max_v == min_v` every id maps to `1.0`;
otherwise each value maps to `(v - min_v) / (max_v - min_v)`. -/
def minmax_norm (vals : List (ℤ × ℚ)) : List (ℤ × ℚ) :=
  match vals with
  | [] => []
  | v :: rest =>
    let min_v := listMin ((v :: rest).map Prod.snd)
    let max_v := listMax ((v :: rest).map Prod.snd)
    if max_v = min_v then (v :: rest).map (fun p => (p.1, (1 : ℚ)))
    else (v :: rest).map (fun p => (p.1, (p.2 - min_v) / (max_v - min_v)))

/-- The literal `1e-9` used by the warm-start normalizer. -/
def minmax_eps : ℚ := 1 / 1000000000

/-- Denominator used by `minmax_dict`: `max_v - min_v + 1e-9`
(src/recommender.py line 346). -/
def minmax_denom (d : List (ℤ × ℚ)) : ℚ :=
  listMax (d.map Prod.snd) - listMin (d.map Prod.snd) + minmax_eps

/-- The warm-start (epsilon-variant) min-max normalizer `minmax_dict` defined
inside `HybridRecommender.recommend` (src/recommender.py lines 342–346). -/
def minmax_dict (d : List (ℤ × ℚ)) : List (ℤ × ℚ) :=
  match d with
  | [] => []
  | v :: rest =>
    (v :: rest).map (fun p =>
      (p.1, (p.2 - listMin ((v :: rest).map Prod.snd)) / minmax_denom (v :: rest)))

/-- `HybridRecommender._adaptive_alpha` (src/recommender.py lines 220–227). -/
def _adaptive_alpha (basket_size : ℤ) (c : ℚ) : ℚ :=
  if basket_size ≤ 0 then 0 else (basket_size : ℚ) / ((basket_size : ℚ) + c)

/-- The inline alpha computed in `recommend`'s warm path
(src/recommender.py lines 355–356): `min(1.0, max(0.0, n / (n + c)))` with `c = 3`. -/
def warm_alpha (basket_size : ℕ) : ℚ :=
  min 1 (max 0 ((basket_size : ℚ) / ((basket_size : ℚ) + 3)))

/-! ### Basic lemmas about the numeric helpers -/

theorem foldl_min_const {c : ℚ} : ∀ (vs : List ℚ), (∀ x ∈ vs, x = c) →
    vs.foldl min c = c := by
  intro vs
  induction vs with
  | nil => intro _; rfl
  | cons x xs ih =>
    intro h
    have hx : x = c := h x (by simp)
    simp [List.foldl_cons, hx, ih fun y hy => h y (by simp [hy])]

theorem foldl_max_const {c : ℚ} : ∀ (vs : List ℚ), (∀ x ∈ vs, x = c) →
    vs.foldl max c = c := by
  intro vs
  induction vs with
  | nil => intro _; rfl
  | cons x xs ih =>
    intro h
    have hx : x = c := h x (by simp)
    simp [List.foldl_cons, hx, ih fun y hy => h y (by simp [hy])]

theorem listMin_const {l : List ℚ} {c : ℚ} (h : ∀ x ∈ l, x = c) (hne : l ≠ []) :
    listMin l = c := by
  cases l with
  | nil => exact absurd rfl hne
  | cons v vs =>
    have hv : v = c := h v (by simp)
    simpa [listMin, hv] using foldl_min_const vs fun y hy => h y (by simp [hy])

theorem listMax_const {l : List ℚ} {c : ℚ} (h : ∀ x ∈ l, x = c) (hne : l ≠ []) :
    listMax l = c := by
  cases l with
  | nil => exact absurd rfl hne
  | cons v vs =>
    have hv : v = c := h v (by simp)
    simpa [listMax, hv] using foldl_max_const vs fun y hy => h y (by simp [hy])

theorem foldl_min_le_acc : ∀ (vs : List ℚ) (acc : ℚ), vs.foldl min acc ≤ acc := by
  intro vs
  induction vs with
  | nil => intro acc; simp
  | cons x xs ih =>
    intro acc
    calc (x :: xs).foldl min acc = xs.foldl min (min acc x) := by simp
    _ ≤ min acc x := ih (min acc x)
    _ ≤ acc := min_le_left _ _

theorem acc_le_foldl_max : ∀ (vs : List ℚ) (acc : ℚ), acc ≤ vs.foldl max acc := by
  intro vs
  induction vs with
  | nil => intro acc; simp
  | cons x xs ih =>
    intro acc
    calc acc ≤ max acc x := le_max_left _ _
    _ ≤ xs.foldl max (max acc x) := ih (max acc x)
    _ = (x :: xs).foldl max acc := by simp

theorem listMin_le_listMax {l : List ℚ} (hne : l ≠ []) : listMin l ≤ listMax l := by
  cases l with
  | nil => exact absurd rfl hne
  | cons v vs =>
    calc listMin (v :: vs) = vs.foldl min v := rfl
    _ ≤ v := foldl_min_le_acc vs v
    _ ≤ vs.foldl max v := acc_le_foldl_max vs v
    _ = listMax (v :: vs) := rfl

/-! ### Claim C1: the cold-start normalizer on equal counts -/

/-- C1 counterexample: the claim states that when every count equals a
non-positive value (e.g. zero), `minmax_norm` maps every item to `0.0`.
The code returns `1.0` whenever `max == min`, regardless of sign:
on `[(1, 0)]` the output is `[(1, 1.0)]`, not `[(1, 0.0)]`. -/
theorem c1_minmax_norm_counterexample :
    ¬ (∀ (l : List (ℤ × ℚ)) (c : ℚ), l ≠ [] → (∀ p ∈ l, p.2 = c) →
        ((0 < c → ∀ q ∈ minmax_norm l, q.2 = 1) ∧
         (c ≤ 0 → ∀ q ∈ minmax_norm l, q.2 = 0))) := by
  intro h
  have h0 := (h [((1:ℤ), (0:ℚ))] 0 (by simp) (by simp)).2 le_rfl
    ((1:ℤ), (1:ℚ)) (by decide)
  norm_num at h0

/-- C1 (amended): applied to a non-empty list of (item, count) pairs in which
every count is equal, `minmax_norm` gives every item the normalized score
`1.0`, whether the shared count is positive, zero or negative
(the `max_v == min_v` branch returns `1.0` unconditionally). -/
theorem c1_minmax_norm_equal_counts (l : List (ℤ × ℚ)) (c : ℚ)
    (hne : l ≠ []) (hall : ∀ p ∈ l, p.2 = c) :
    ∀ q ∈ minmax_norm l, q.2 = 1 := by
  cases l with
  | nil => exact absurd rfl hne
  | cons v rest =>
    have hvals : ∀ x ∈ ((v :: rest).map Prod.snd), x = c := by
      intro x hx
      rw [List.mem_map] at hx
      obtain ⟨p, hp, rfl⟩ := hx
      exact hall p hp
    have hvals' : ∀ x ∈ (v.2 :: rest.map Prod.snd), x = c := by simpa using hvals
    have hmin : listMin (v.2 :: rest.map Prod.snd) = c :=
      listMin_const hvals' (by simp)
    have hmax : listMax (v.2 :: rest.map Prod.snd) = c :=
      listMax_const hvals' (by simp)
    intro q hq
    have hform : minmax_norm (v :: rest) = (v :: rest).map (fun p => (p.1, (1:ℚ))) := by
      simp [minmax_norm, hmin, hmax]
    rw [hform, List.mem_map] at hq
    obtain ⟨p, _, rfl⟩ := hq
    rfl

/-- Witness for C1 (amended) at the concrete input `[(2, 7), (3, 7)]`. -/
theorem c1_minmax_norm_equal_counts_witness :
    ((2:ℤ), (1:ℚ)) ∈ minmax_norm [((2:ℤ), (7:ℚ)), ((3:ℤ), (7:ℚ))] ∧
    (((2:ℤ), (1:ℚ)) : ℤ × ℚ).2 = 1 :=
  ⟨by decide,
   c1_minmax_norm_equal_counts [((2:ℤ), (7:ℚ)), ((3:ℤ), (7:ℚ))] 7 (by simp)
     (by intro p hp; rcases List.mem_pair.mp hp with h | h <;> simp [h])
     ((2:ℤ), (1:ℚ)) (by decide)⟩

/-! ### Claim C3: the adaptive blend weight -/

/-- C3: `_adaptive_alpha` with `c = 3` is monotonically non-decreasing in the
basket size, takes the values `1/4`, `1/2`, `3/4` at basket sizes `1`, `3`, `9`,
and agrees with the clamped inline formula `min(1.0, max(0.0, n/(n+c)))`
used in `recommend`'s warm path. -/
theorem c3_adaptive_alpha_monotone_values :
    (∀ m n : ℤ, m ≤ n → _adaptive_alpha m 3 ≤ _adaptive_alpha n 3) ∧
    _adaptive_alpha 1 3 = 1/4 ∧ _adaptive_alpha 3 3 = 1/2 ∧
    _adaptive_alpha 9 3 = 3/4 ∧
    (∀ n : ℕ, warm_alpha n = _adaptive_alpha (n : ℤ) 3) := by
  refine ⟨fun m n hmn => ?_, by norm_num [_adaptive_alpha],
    by norm_num [_adaptive_alpha], by norm_num [_adaptive_alpha], fun n => ?_⟩
  · unfold _adaptive_alpha
    by_cases hn : n ≤ 0
    · simp [le_trans hmn hn, hn]
    · push_neg at hn
      have hnneg : ¬ n ≤ 0 := by omega
      have hn' : (0:ℚ) < (n:ℚ) := by exact_mod_cast hn
      by_cases hm : m ≤ 0
      · rw [if_pos hm, if_neg hnneg]
        exact div_nonneg hn'.le (by linarith)
      · rw [if_neg hm, if_neg hnneg]
        push_neg at hm
        have hm' : (0:ℚ) < (m:ℚ) := by exact_mod_cast hm
        have hmn' : (m:ℚ) ≤ (n:ℚ) := by exact_mod_cast hmn
        rw [div_le_div_iff₀ (by linarith) (by linarith)]
        nlinarith
  · unfold warm_alpha _adaptive_alpha
    rcases Nat.eq_zero_or_pos n with h0 | hpos
    · simp [h0]
    · have hn' : (0:ℚ) < (n:ℚ) := by exact_mod_cast hpos
      have hnonneg : (0:ℚ) ≤ (n:ℚ) / ((n:ℚ) + 3) := div_nonneg hn'.le (by linarith)
      have hle : (n:ℚ) / ((n:ℚ) + 3) ≤ 1 := by
        rw [div_le_one (by linarith)]; linarith
      rw [if_neg (by omega)]
      rw [max_eq_right hnonneg, min_eq_right hle]
      norm_num

/-- Witness for C3 applying monotonicity at basket sizes `2 ≤ 5`. -/
theorem c3_adaptive_alpha_witness :
    (2:ℤ) ≤ 5 ∧ _adaptive_alpha 2 3 ≤ _adaptive_alpha 5 3 :=
  ⟨by norm_num, c3_adaptive_alpha_monotone_values.1 2 5 (by norm_num)⟩

/-! ### Claim C4: the epsilon-variant normalizer never divides by zero -/

/-- C4: the denominator `max_v - min_v + 1e-9` of `minmax_dict` is non-zero
for every non-empty input, and on a single-item mapping `minmax_dict`
returns `0.0` for that item (not `1.0`). -/
theorem c4_minmax_dict_no_zero_div :
    (∀ d : List (ℤ × ℚ), d ≠ [] → minmax_denom d ≠ 0) ∧
    (∀ (k : ℤ) (v : ℚ), minmax_dict [(k, v)] = [(k, 0)]) := by
  constructor
  · intro d hd hc
    have h1 : listMin (d.map Prod.snd) ≤ listMax (d.map Prod.snd) :=
      listMin_le_listMax (fun h => hd (by simpa using h))
    unfold minmax_denom minmax_eps at hc
    have : (0:ℚ) < 1 / 1000000000 := by norm_num
    linarith
  · intro k v
    simp [minmax_dict, minmax_denom, minmax_eps, listMin, listMax]

/-- Witness for C4 at the concrete one-element dict `[(1, 2)]`. -/
theorem c4_minmax_dict_witness :
    ([((1:ℤ), (2:ℚ))] : List (ℤ × ℚ)) ≠ [] ∧ minmax_denom [((1:ℤ), (2:ℚ))] ≠ 0 :=
  ⟨by simp, c4_minmax_dict_no_zero_div.1 [((1:ℤ), (2:ℚ))] (by simp)⟩

/-! ### The interleaver (`interleave_pairs`, src/recommender.py lines 6–48) -/

/-- The inner backfill `while` loop of `interleave_pairs`
(src/recommender.py lines 38–43): drain the remaining global entries in rank
order, skipping already-seen ids, until the output reaches `top_n`. -/
def backfillGlobals (top_n : Nat) :
    List (ℤ × ℚ) → List (ℤ × ℚ × PopSrc) → List ℤ → List (ℤ × ℚ × PopSrc)
  | [], out, _ => out
  | (iid, score) :: rest, out, seen =>
    if out.length < top_n then
      if iid ∈ seen then backfillGlobals top_n rest out seen
      else backfillGlobals top_n rest (out ++ [(iid, score, PopSrc.global)]) (iid :: seen)
    else out

/-- Step-by-step model of the outer `while` loop of `interleave_pairs`
(src/recommender.py lines 17–46), with an explicit fuel argument;
`none` means the fuel ran out before the loop reached a `return`/`break`.
State: accumulated `out`, `seen` ids, cursors `ia`, `ib`, and `turn`. -/
def interleaveLoop (a b region_norm : List (ℤ × ℚ)) (threshold : ℚ) (top_n : Nat) :
    Nat → List (ℤ × ℚ × PopSrc) → List ℤ → Nat → Nat → Turn →
    Option (List (ℤ × ℚ × PopSrc))
  | 0, _, _, _, _, _ => none
  | fuel + 1, out, seen, ia, ib, turn =>
    if out.length < top_n ∧ (ia < a.length ∨ ib < b.length) then
      if turn = Turn.region ∧ ia < a.length then
        let p := a.getD ia (0, 0)
        if p.1 ∉ seen ∧ threshold ≤ dictGetD region_norm p.1 0 then
          interleaveLoop a b region_norm threshold top_n fuel
            (out ++ [(p.1, p.2, PopSrc.region)]) (p.1 :: seen) (ia + 1) ib Turn.global
        else
          interleaveLoop a b region_norm threshold top_n fuel out seen (ia + 1) ib
            Turn.global
      else if turn = Turn.global ∧ ib < b.length then
        let p := b.getD ib (0, 0)
        if p.1 ∉ seen then
          interleaveLoop a b region_norm threshold top_n fuel
            (out ++ [(p.1, p.2, PopSrc.global)]) (p.1 :: seen) ia (ib + 1) Turn.region
        else
          interleaveLoop a b region_norm threshold top_n fuel out seen ia (ib + 1)
            Turn.region
      else if a.length ≤ ia ∨ ∀ x ∈ a.drop ia, dictGetD region_norm x.1 0 < threshold then
        some (backfillGlobals top_n (b.drop ib) out seen)
      else
        interleaveLoop a b region_norm threshold top_n fuel out seen ia ib Turn.region
    else
      some out

/-- Measure that strictly decreases at every recursive step of `interleaveLoop`. -/
def interleaveMeasure (a b : List (ℤ × ℚ)) (ia ib : Nat) (turn : Turn) : Nat :=
  2 * ((a.length - ia) + (b.length - ib)) + (if turn = Turn.global then 1 else 0)

/-- Fuel that always suffices for the loop (proved in `interleaveLoop_isSome`). -/
def interleaveFuel (a b : List (ℤ × ℚ)) : Nat := 2 * (a.length + b.length) + 2

/-- `interleave_pairs` itself: run the loop from the initial state
(`out = []`, `seen = set()`, `ia = ib = 0`, `turn = "region"`). -/
def interleave_pairs (a b region_norm : List (ℤ × ℚ)) (threshold : ℚ) (top_n : Nat) :
    List (ℤ × ℚ × PopSrc) :=
  (interleaveLoop a b region_norm threshold top_n (interleaveFuel a b)
    [] [] 0 0 Turn.region).getD []

theorem interleaveMeasure_region (a b : List (ℤ × ℚ)) (ia ib : Nat) :
    interleaveMeasure a b ia ib Turn.region =
      2 * ((a.length - ia) + (b.length - ib)) := by
  simp [interleaveMeasure]

theorem interleaveMeasure_global (a b : List (ℤ × ℚ)) (ia ib : Nat) :
    interleaveMeasure a b ia ib Turn.global =
      2 * ((a.length - ia) + (b.length - ib)) + 1 := by
  simp [interleaveMeasure]

theorem interleaveLoop_isSome (a b region_norm : List (ℤ × ℚ)) (threshold : ℚ)
    (top_n : Nat) :
    ∀ (fuel : Nat) (out : List (ℤ × ℚ × PopSrc)) (seen : List ℤ) (ia ib : Nat)
      (turn : Turn), interleaveMeasure a b ia ib turn < fuel →
      (interleaveLoop a b region_norm threshold top_n fuel out seen ia ib turn).isSome := by
  intro fuel
  induction fuel with
  | zero => intro out seen ia ib turn h; exact absurd h (Nat.not_lt_zero _)
  | succ f ih =>
    intro out seen ia ib turn h
    simp only [interleaveLoop]
    split_ifs with hcond hreg hemit hglob hgemit hback
    · obtain ⟨ht, hia⟩ := hreg
      subst ht
      rw [interleaveMeasure_region] at h
      apply ih
      rw [interleaveMeasure_global]
      omega
    · obtain ⟨ht, hia⟩ := hreg
      subst ht
      rw [interleaveMeasure_region] at h
      apply ih
      rw [interleaveMeasure_global]
      omega
    · obtain ⟨ht, hib⟩ := hglob
      subst ht
      rw [interleaveMeasure_global] at h
      apply ih
      rw [interleaveMeasure_region]
      omega
    · obtain ⟨ht, hib⟩ := hglob
      subst ht
      rw [interleaveMeasure_global] at h
      apply ih
      rw [interleaveMeasure_region]
      omega
    · rfl
    · have hia : ia < a.length := by
        rcases not_or.mp hback with ⟨h1, _⟩
        omega
      have ht : turn = Turn.global := by
        cases turn with
        | region => exact absurd ⟨rfl, hia⟩ hreg
        | global => rfl
      subst ht
      rw [interleaveMeasure_global] at h
      apply ih
      rw [interleaveMeasure_region]
      omega
    · rfl

/-- C10: the `while` loop of `interleave_pairs` terminates for every input:
every loop iteration either advances a cursor, exits via the backfill branch
or the loop guard, or resets the turn to `"region"` in a state where the next
iteration must advance the region cursor, so fuel `2·(|a|+|b|)+2` always
suffices and the loop model never runs out of fuel. -/
theorem c10_interleave_pairs_terminates (a b region_norm : List (ℤ × ℚ))
    (threshold : ℚ) (top_n : Nat) :
    (interleaveLoop a b region_norm threshold top_n (interleaveFuel a b)
      [] [] 0 0 Turn.region).isSome := by
  apply interleaveLoop_isSome
  simp [interleaveMeasure, interleaveFuel]

/-! ### Claim C2: soundness invariants of the interleaver -/

theorem backfillGlobals_inv (top_n : Nat) (region_norm : List (ℤ × ℚ))
    (threshold : ℚ) :
    ∀ (rest : List (ℤ × ℚ)) (out : List (ℤ × ℚ × PopSrc)) (seen : List ℤ),
      out.length ≤ top_n →
      (∀ x ∈ out, x.2.2 = PopSrc.region → threshold ≤ dictGetD region_norm x.1 0) →
      (∀ x ∈ out, x.1 ∈ seen) →
      ((out.map fun x : ℤ × ℚ × PopSrc => x.1).Nodup) →
      (backfillGlobals top_n rest out seen).length ≤ top_n ∧
      (∀ x ∈ backfillGlobals top_n rest out seen, x.2.2 = PopSrc.region →
        threshold ≤ dictGetD region_norm x.1 0) ∧
      ((backfillGlobals top_n rest out seen).map fun x : ℤ × ℚ × PopSrc => x.1).Nodup := by
  intro rest
  induction rest with
  | nil => intro out seen h1 h2 h3 h4; exact ⟨h1, h2, h4⟩
  | cons p rest ih =>
    intro out seen h1 h2 h3 h4
    obtain ⟨iid, score⟩ := p
    simp only [backfillGlobals]
    split_ifs with hlen hseen
    · exact ih out seen h1 h2 h3 h4
    · apply ih
      · simp only [List.length_append, List.length_singleton]
        omega
      · intro x hx
        rcases List.mem_append.mp hx with hx | hx
        · exact h2 x hx
        · intro htag
          simp only [List.mem_singleton] at hx
          subst hx
          simp at htag
      · intro x hx
        rcases List.mem_append.mp hx with hx | hx
        · exact List.mem_cons_of_mem _ (h3 x hx)
        · simp only [List.mem_singleton] at hx
          subst hx
          exact List.mem_cons_self _ _
      · rw [List.map_append]
        rw [List.nodup_append]
        refine ⟨h4, List.nodup_singleton _, ?_⟩
        intro y hy
        simp only [List.map_singleton, List.mem_singleton]
        intro hcontra
        subst hcontra
        rcases List.mem_map.mp hy with ⟨x, hx, hx1⟩
        exact hseen (hx1 ▸ h3 x hx)
    · exact ⟨h1, h2, h4⟩

theorem interleaveLoop_inv (a b region_norm : List (ℤ × ℚ)) (threshold : ℚ)
    (top_n : Nat) :
    ∀ (fuel : Nat) (out : List (ℤ × ℚ × PopSrc)) (seen : List ℤ) (ia ib : Nat)
      (turn : Turn) (r : List (ℤ × ℚ × PopSrc)),
      interleaveLoop a b region_norm threshold top_n fuel out seen ia ib turn = some r →
      out.length ≤ top_n →
      (∀ x ∈ out, x.2.2 = PopSrc.region → threshold ≤ dictGetD region_norm x.1 0) →
      (∀ x ∈ out, x.1 ∈ seen) →
      ((out.map fun x : ℤ × ℚ × PopSrc => x.1).Nodup) →
      r.length ≤ top_n ∧
      (∀ x ∈ r, x.2.2 = PopSrc.region → threshold ≤ dictGetD region_norm x.1 0) ∧
      ((r.map fun x : ℤ × ℚ × PopSrc => x.1).Nodup) := by
  intro fuel
  induction fuel with
  | zero =>
    intro out seen ia ib turn r hr
    simp [interleaveLoop] at hr
  | succ f ih =>
    intro out seen ia ib turn r hr h1 h2 h3 h4
    simp only [interleaveLoop] at hr
    split_ifs at hr with hcond hreg hemit hglob hgemit hback
    · apply ih _ _ _ _ _ _ hr
      · simp only [List.length_append, List.length_singleton]
        omega
      · intro x hx
        rcases List.mem_append.mp hx with hx | hx
        · exact h2 x hx
        · simp only [List.mem_singleton] at hx
          subst hx
          intro _
          exact hemit.2
      · intro x hx
        rcases List.mem_append.mp hx with hx | hx
        · exact List.mem_cons_of_mem _ (h3 x hx)
        · simp only [List.mem_singleton] at hx
          subst hx
          exact List.mem_cons_self _ _
      · rw [List.map_append, List.nodup_append]
        refine ⟨h4, List.nodup_singleton _, ?_⟩
        intro y hy
        simp only [List.map_singleton, List.mem_singleton]
        intro hcontra
        subst hcontra
        rcases List.mem_map.mp hy with ⟨x, hx, hx1⟩
        exact hemit.1 (hx1 ▸ h3 x hx)
    · exact ih _ _ _ _ _ _ hr h1 h2 h3 h4
    · exact ih _ _ _ _ _ _ hr h1 h2 h3 h4
    · apply ih _ _ _ _ _ _ hr
      · simp only [List.length_append, List.length_singleton]
        omega
      · intro x hx
        rcases List.mem_append.mp hx with hx | hx
        · exact h2 x hx
        · intro htag
          simp only [List.mem_singleton] at hx
          subst hx
          simp at htag
      · intro x hx
        rcases List.mem_append.mp hx with hx | hx
        · exact List.mem_cons_of_mem _ (h3 x hx)
        · simp only [List.mem_singleton] at hx
          subst hx
          exact List.mem_cons_self _ _
      · rw [List.map_append, List.nodup_append]
        refine ⟨h4, List.nodup_singleton _, ?_⟩
        intro y hy
        simp only [List.map_singleton, List.mem_singleton]
        intro hcontra
        subst hcontra
        rcases List.mem_map.mp hy with ⟨x, hx, hx1⟩
        exact hgemit (hx1 ▸ h3 x hx)
    · rw [Option.some.injEq] at hr
      subst hr
      exact backfillGlobals_inv top_n region_norm threshold _ out seen h1 h2 h3 h4
    · exact ih _ _ _ _ _ _ hr h1 h2 h3 h4
    · rw [Option.some.injEq] at hr
      subst hr
      exact ⟨h1, h2, h4⟩

/-- C2: for every pair of region and global lists, every normalized-score map,
every threshold, and every `top_n`, the output of `interleave_pairs` has
length at most `top_n`, contains no duplicate item ids, and every entry
tagged `"region"` has a normalized regional score at least the threshold. -/
theorem c2_interleave_pairs_sound (a b region_norm : List (ℤ × ℚ))
    (threshold : ℚ) (top_n : Nat) :
    (interleave_pairs a b region_norm threshold top_n).length ≤ top_n ∧
    ((interleave_pairs a b region_norm threshold top_n).map
      fun x : ℤ × ℚ × PopSrc => x.1).Nodup ∧
    (∀ x ∈ interleave_pairs a b region_norm threshold top_n,
      x.2.2 = PopSrc.region → threshold ≤ dictGetD region_norm x.1 0) := by
  unfold interleave_pairs
  cases hr : interleaveLoop a b region_norm threshold top_n (interleaveFuel a b)
      [] [] 0 0 Turn.region with
  | none => simp
  | some r =>
    have hinv := interleaveLoop_inv a b region_norm threshold top_n _ [] [] 0 0
      Turn.region r hr (by simp) (by simp) (by simp) (by simp)
    simp only [Option.getD_some]
    exact ⟨hinv.1, hinv.2.2, hinv.2.1⟩

/-- Witness for C2: the region-threshold guarantee applied to a concrete
output entry of a concrete interleave run. -/
theorem c2_interleave_pairs_witness :
    ((1:ℤ), (100:ℚ), PopSrc.region) ∈
      interleave_pairs [((1:ℤ), (100:ℚ)), (2, 50)] [(3, 200), (1, 100)]
        [(1, 1), (2, 0)] (mkRat 1 5) 4 ∧
    mkRat 1 5 ≤ dictGetD [((1:ℤ), (1:ℚ)), (2, 0)] 1 0 :=
  ⟨by decide,
   (c2_interleave_pairs_sound [((1:ℤ), (100:ℚ)), (2, 50)] [(3, 200), (1, 100)]
      [(1, 1), (2, 0)] (mkRat 1 5) 4).2.2 ((1:ℤ), (100:ℚ), PopSrc.region)
      (by decide) (by decide)⟩

/-! ### Claim C7: empty region list means pure global backfill -/

/-- First-occurrence, order-preserving deduplication of a ranked (id, score)
list against an initial `seen` set. This is the reference output shape named
by the spec for the backfill case: global items in original rank order,
duplicates removed, first occurrence kept. -/
def dedupFirst : List (ℤ × ℚ) → List ℤ → List (ℤ × ℚ)
  | [], _ => []
  | (iid, score) :: rest, seen =>
    if iid ∈ seen then dedupFirst rest seen
    else (iid, score) :: dedupFirst rest (iid :: seen)

theorem backfillGlobals_eq (top_n : Nat) :
    ∀ (rest : List (ℤ × ℚ)) (out : List (ℤ × ℚ × PopSrc)) (seen : List ℤ),
      backfillGlobals top_n rest out seen =
        out ++ ((dedupFirst rest seen).map
          (fun p : ℤ × ℚ => (p.1, p.2, PopSrc.global))).take (top_n - out.length) := by
  intro rest
  induction rest with
  | nil => intro out seen; simp [backfillGlobals, dedupFirst]
  | cons p rest ih =>
    intro out seen
    obtain ⟨iid, score⟩ := p
    simp only [backfillGlobals, dedupFirst]
    split_ifs with hlen hseen
    · rw [ih]
    · rw [ih]
      simp only [List.length_append, List.length_singleton, List.map_cons]
      rw [show top_n - out.length = (top_n - (out.length + 1)) + 1 from by omega,
        List.take_succ_cons]
      simp [List.append_assoc]
    · have h0 : top_n - out.length = 0 := by omega
      simp [h0]
    · have h0 : top_n - out.length = 0 := by omega
      simp [h0]

/-- C7: if the region list is empty, the output of `interleave_pairs` consists
solely of `"global"`-tagged items in the global list's original order with
duplicate ids removed, truncated to `top_n`. -/
theorem c7_interleave_pairs_empty_region (b region_norm : List (ℤ × ℚ))
    (threshold : ℚ) (top_n : Nat) :
    interleave_pairs [] b region_norm threshold top_n =
      ((dedupFirst b []).map (fun p : ℤ × ℚ => (p.1, p.2, PopSrc.global))).take top_n := by
  have hfuel : interleaveFuel [] b = 2 * b.length + 1 + 1 := by
    simp [interleaveFuel]
  unfold interleave_pairs
  rw [hfuel]
  by_cases hn : top_n = 0
  · subst hn
    simp [interleaveLoop]
  · by_cases hb : b = []
    · subst hb
      simp [interleaveLoop, dedupFirst]
    · have h0 : 0 < top_n := Nat.pos_of_ne_zero hn
      have hB : 0 < b.length := List.length_pos.mpr hb
      simp [interleaveLoop, h0, hB, backfillGlobals_eq]

/-! ### The recommendation engine (`HybridRecommender.recommend`, warm path) -/

/-- The per-candidate component dict of the warm path
(`{"rule": …}` / `{"pop": …}` entries of `candidate_scores`). -/
structure Comp where
  rule : Option ℚ
  pop : Option ℚ
deriving DecidableEq, Repr

/-- `sorted(rules_dict.items(), key=lambda x: x[1], reverse=True)`
(src/recommender.py line 316): stable descending sort by rule score. -/
def ranked_rules (rules_dict : List (ℤ × ℚ)) : List (ℤ × ℚ) :=
  rules_dict.mergeSort (fun x y => decide (y.2 ≤ x.2))

/-- The rules loop of `recommend` (lines 322–324): every ranked rule id not in
the basket becomes a candidate carrying only a rule component. -/
def ruleCandidates (basket : List ℤ) (rr : List (ℤ × ℚ)) : List (ℤ × Comp) :=
  (rr.filter (fun p => decide (p.1 ∉ basket))).map (fun p => (p.1, ⟨some p.2, none⟩))

/-- `candidate_scores[iid]["pop"] = score` preceded by
`if iid not in candidate_scores: candidate_scores[iid] = {}` (lines 335–337):
update the pop component of the existing entry, else append a pop-only entry. -/
def setPop (cs : List (ℤ × Comp)) (iid : ℤ) (score : ℚ) : List (ℤ × Comp) :=
  match cs with
  | [] => [(iid, ⟨none, some score⟩)]
  | (k, c) :: rest =>
    if k = iid then (k, { c with pop := some score }) :: rest
    else (k, c) :: setPop rest iid score

/-- The popularity loop of `recommend`'s warm path (lines 333–337):
rows whose id is in the basket are skipped. -/
def addPops (basket : List ℤ) :
    List (ℤ × Comp) → List (ℤ × ℚ × PopSrc) → List (ℤ × Comp)
  | cs, [] => cs
  | cs, (iid, score, _) :: rest =>
    addPops basket (if iid ∈ basket then cs else setPop cs iid score) rest

/-- The full warm-start candidate dict (lines 315–337), as a function of the
fetched `rules_dict` and the fetched popularity rows. -/
def candidate_scores (basket : List ℤ) (rules_dict : List (ℤ × ℚ))
    (pop : List (ℤ × ℚ × PopSrc)) : List (ℤ × Comp) :=
  addPops basket (ruleCandidates basket (ranked_rules rules_dict)) pop

/-- Description lookup `self.id_to_item.get(iid, f"<unknown:{iid}>")`. -/
def descriptionOf (catalog : List (ℤ × String)) (iid : ℤ) : String :=
  dictGetD catalog iid ("<unknown:" ++ toString iid ++ ">")

/-- One output dict of the warm path (lines 365–372). -/
structure WarmRec where
  item_id : ℤ
  description : String
  final_score : ℚ
  rule_norm : Option ℚ
  pop_norm : Option ℚ
  source : RecSource
deriving DecidableEq, Repr

/-- The final-scoring loop of the warm path (lines 360–372). -/
def warmResults (catalog : List (ℤ × String)) (alpha : ℚ)
    (rule_norm pop_norm : List (ℤ × ℚ)) (cs : List (ℤ × Comp)) : List WarmRec :=
  cs.map (fun q =>
    { item_id := q.1
      description := descriptionOf catalog q.1
      final_score := alpha * dictGetD rule_norm q.1 0 +
        (1 - alpha) * dictGetD pop_norm q.1 0
      rule_norm := if q.2.rule.isSome then some (dictGetD rule_norm q.1 0) else none
      pop_norm := if q.2.pop.isSome then some (dictGetD pop_norm q.1 0) else none
      source := if q.2.rule.isSome then RecSource.rules else RecSource.popularity })

/-- The warm path's `rule_scores` dict (line 348): the candidates carrying a
rule component, with their rule scores. -/
def rule_scores (cs : List (ℤ × Comp)) : List (ℤ × ℚ) :=
  cs.filterMap (fun q => q.2.rule.map (fun r => (q.1, r)))

/-- The warm path's `pop_scores` dict (line 349): the candidates carrying a
popularity component, with their counts. -/
def pop_scores (cs : List (ℤ × Comp)) : List (ℤ × ℚ) :=
  cs.filterMap (fun q => q.2.pop.map (fun v => (q.1, v)))

/-- `recommend`'s warm-start branch (src/recommender.py lines 312–376). -/
def warm_recommend (catalog : List (ℤ × String)) (basket : List ℤ)
    (rules_dict : List (ℤ × ℚ)) (pop : List (ℤ × ℚ × PopSrc)) (top_n : Nat) :
    List WarmRec :=
  let cs := candidate_scores basket rules_dict pop
  let rule_norm := minmax_dict (rule_scores cs)
  let pop_norm := minmax_dict (pop_scores cs)
  let alpha := warm_alpha basket.length
  ((warmResults catalog alpha rule_norm pop_norm cs).mergeSort
    (fun x y => decide (y.final_score ≤ x.final_score))).take top_n

/-- One output dict of the cold path (lines 300–308). -/
structure ColdRec where
  item_id : ℤ
  description : String
  region_score : Option ℚ
  global_score : Option ℚ
  source : PopSrc
deriving DecidableEq, Repr

/-- `recommend`'s cold-start branch (lines 272–309): split the fetched rows by
source tag, normalize each side with `minmax_norm`, interleave with threshold
`0.2`, truncate to `top_n` and annotate. -/
def cold_recommend (catalog : List (ℤ × String)) (pop_all : List (ℤ × ℚ × PopSrc))
    (top_n : Nat) : List ColdRec :=
  let pop_region := (pop_all.filter (fun r => decide (r.2.2 = PopSrc.region))).map
    (fun r => (r.1, r.2.1))
  let pop_global := (pop_all.filter (fun r => decide (r.2.2 = PopSrc.global))).map
    (fun r => (r.1, r.2.1))
  let region_norm := minmax_norm pop_region
  let global_norm := minmax_norm pop_global
  let pop := interleave_pairs pop_region pop_global region_norm (1/5) top_n
  (pop.take top_n).map (fun r =>
    { item_id := r.1
      description := descriptionOf catalog r.1
      region_score := if r.2.2 = PopSrc.region then dictGet region_norm r.1 else none
      global_score := if r.2.2 = PopSrc.global then dictGet global_norm r.1 else none
      source := r.2.2 })

/-- The value returned by `recommend`: a list of cold-start dicts or a list of
warm-start dicts, depending on the mode taken. -/
inductive RecOutput where
  | cold (recs : List ColdRec)
  | warm (recs : List WarmRec)
deriving DecidableEq, Repr

/-- The `recommend` dispatch (line 272): cold start exactly when the basket is
empty. The `rules_dict` and `pop` arguments stand for the results the
collaborator queries of the taken branch would return. -/
def recommend (catalog : List (ℤ × String)) (basket : List ℤ)
    (rules_dict : List (ℤ × ℚ)) (pop : List (ℤ × ℚ × PopSrc)) (top_n : Nat) :
    RecOutput :=
  if basket = [] then RecOutput.cold (cold_recommend catalog pop top_n)
  else RecOutput.warm (warm_recommend catalog basket rules_dict pop top_n)

/-- Item ids of a recommendation output. -/
def outputIds : RecOutput → List ℤ
  | RecOutput.cold recs => recs.map (fun r => r.item_id)
  | RecOutput.warm recs => recs.map (fun r => r.item_id)

/-! ### Engine state and fallible fetches (claims C6, C8) -/

/-- A data-unavailable error raised by a collaborator query. -/
inductive DBError where
  | dataUnavailable (msg : String)
deriving DecidableEq, Repr

/-- In-memory state of a `HybridRecommender` instance: the selected region,
the basket set, and the catalog loaded once by `_load_product_map`. -/
structure EngineState where
  region : String
  basket : List ℤ
  id_to_item : List (ℤ × String)
deriving DecidableEq, Repr

/-- Results of the two collaborator queries one `recommend` call may issue;
`Except.error` models a raised data-unavailable error. -/
structure FetchResults where
  rulesResult : Except DBError (List (ℤ × ℚ))
  popResult : Except DBError (List (ℤ × ℚ × PopSrc))

/-- `recommend` with fallible fetches: the warm path queries rules first and
popularity second, the cold path queries only popularity; a raised error
aborts the call. `recommend` itself never writes to the engine state. -/
def recommendE (st : EngineState) (o : FetchResults) (top_n : Nat) :
    Except DBError RecOutput :=
  if st.basket = [] then
    match o.popResult with
    | Except.error e => Except.error e
    | Except.ok pop => Except.ok (recommend st.id_to_item st.basket [] pop top_n)
  else
    match o.rulesResult with
    | Except.error e => Except.error e
    | Except.ok rules_dict =>
      match o.popResult with
      | Except.error e => Except.error e
      | Except.ok pop =>
        Except.ok (recommend st.id_to_item st.basket rules_dict pop top_n)

/-- `self.basket.add(int(item))` on the basket set. -/
def basketAdd (basket : List ℤ) (item : ℤ) : List ℤ :=
  if item ∈ basket then basket else basket ++ [item]

/-- `self.basket.discard(int(item))` on the basket set. -/
def basketDiscard (basket : List ℤ) (item : ℤ) : List ℤ :=
  basket.filter (fun x => decide (x ≠ item))

/-- `add_item` (lines 117–120): mutate the basket first, then recompute.
The first component is the engine state at the moment the call returns or
raises; the second is the call's outcome. -/
def add_item (st : EngineState) (item : ℤ) (o : FetchResults) (top_n : Nat) :
    EngineState × Except DBError RecOutput :=
  let st' := { st with basket := basketAdd st.basket item }
  (st', recommendE st' o top_n)

/-- `remove_item` (lines 122–124). -/
def remove_item (st : EngineState) (item : ℤ) (o : FetchResults) (top_n : Nat) :
    EngineState × Except DBError RecOutput :=
  let st' := { st with basket := basketDiscard st.basket item }
  (st', recommendE st' o top_n)

/-- A bare `recommend` call: no state is written. -/
def recommend_call (st : EngineState) (o : FetchResults) (top_n : Nat) :
    EngineState × Except DBError RecOutput :=
  (st, recommendE st o top_n)

/-! ### Lemmas about the warm-start candidate construction -/

theorem dictGet_eq_none {β : Type} {d : List (ℤ × β)} {k : ℤ}
    (h : k ∉ d.map Prod.fst) : dictGet d k = none := by
  induction d with
  | nil => rfl
  | cons p rest ih =>
    simp only [List.map_cons, List.mem_cons] at h
    push_neg at h
    simp only [dictGet]
    rw [if_neg (fun he => h.1 he.symm)]
    exact ih h.2

theorem minmax_dict_keys (d : List (ℤ × ℚ)) :
    (minmax_dict d).map Prod.fst = d.map Prod.fst := by
  cases d with
  | nil => rfl
  | cons v rest => simp [minmax_dict, List.map_map, Function.comp]

theorem setPop_keys (iid : ℤ) (score : ℚ) :
    ∀ cs : List (ℤ × Comp),
      (setPop cs iid score).map Prod.fst =
        if iid ∈ cs.map Prod.fst then cs.map Prod.fst
        else cs.map Prod.fst ++ [iid] := by
  intro cs
  induction cs with
  | nil => simp [setPop]
  | cons q rest ih =>
    obtain ⟨k, c⟩ := q
    by_cases hk : k = iid
    · subst hk
      have h1 : setPop ((k, c) :: rest) k score
          = (k, { c with pop := some score }) :: rest := by
        simp [setPop]
      rw [h1, if_pos (by simp : k ∈ ((k, c) :: rest).map Prod.fst)]
      simp
    · have h1 : setPop ((k, c) :: rest) iid score
          = (k, c) :: setPop rest iid score := by
        simp [setPop, hk]
      have hne : ¬ (iid = k) := fun he => hk he.symm
      rw [h1]
      simp only [List.map_cons]
      rw [ih]
      by_cases hmem : iid ∈ rest.map Prod.fst
      · rw [if_pos hmem, if_pos (by simp [hmem])]
      · rw [if_neg hmem, if_neg (by simp [hne, hmem])]
        simp

theorem setPop_keys_nodup {cs : List (ℤ × Comp)} (h : (cs.map Prod.fst).Nodup)
    (iid : ℤ) (score : ℚ) : ((setPop cs iid score).map Prod.fst).Nodup := by
  rw [setPop_keys]
  split_ifs with hmem
  · exact h
  · rw [List.nodup_append]
    exact ⟨h, List.nodup_singleton _, List.disjoint_singleton.mpr hmem⟩

theorem addPops_keys_nodup (basket : List ℤ) :
    ∀ (pop : List (ℤ × ℚ × PopSrc)) (cs : List (ℤ × Comp)),
      (cs.map Prod.fst).Nodup → ((addPops basket cs pop).map Prod.fst).Nodup := by
  intro pop
  induction pop with
  | nil => intro cs h; exact h
  | cons row rest ih =>
    intro cs h
    obtain ⟨iid, score, src⟩ := row
    simp only [addPops]
    split_ifs with hb
    · exact ih cs h
    · exact ih _ (setPop_keys_nodup h iid score)

theorem setPop_mem (iid : ℤ) (score : ℚ) :
    ∀ (cs : List (ℤ × Comp)) (q : ℤ × Comp), q ∈ setPop cs iid score →
      q ∈ cs ∨ (q.1 = iid ∧ q.2.pop = some score ∧
        (q.2.rule = none ∨ ∃ c₀ : Comp, (iid, c₀) ∈ cs ∧ q.2.rule = c₀.rule)) := by
  intro cs
  induction cs with
  | nil =>
    intro q hq
    simp only [setPop, List.mem_singleton] at hq
    subst hq
    exact Or.inr ⟨rfl, rfl, Or.inl rfl⟩
  | cons p rest ih =>
    intro q hq
    obtain ⟨k, c⟩ := p
    simp only [setPop] at hq
    split_ifs at hq with hk
    · subst hk
      rcases List.mem_cons.mp hq with hq | hq
      · subst hq
        exact Or.inr ⟨rfl, rfl, Or.inr ⟨c, List.mem_cons_self _ _, rfl⟩⟩
      · exact Or.inl (List.mem_cons_of_mem _ hq)
    · rcases List.mem_cons.mp hq with hq | hq
      · subst hq
        exact Or.inl (List.mem_cons_self _ _)
      · rcases ih q hq with h | ⟨h1, h2, h3⟩
        · exact Or.inl (List.mem_cons_of_mem _ h)
        · refine Or.inr ⟨h1, h2, ?_⟩
          rcases h3 with h3 | ⟨c₀, hc₀, hr⟩
          · exact Or.inl h3
          · exact Or.inr ⟨c₀, List.mem_cons_of_mem _ hc₀, hr⟩

theorem ruleCandidates_not_in_basket (basket : List ℤ) (rr : List (ℤ × ℚ)) :
    ∀ q ∈ ruleCandidates basket rr, q.1 ∉ basket := by
  intro q hq
  simp only [ruleCandidates, List.mem_map, List.mem_filter] at hq
  obtain ⟨p, ⟨_, hp⟩, rfl⟩ := hq
  simpa using hp

theorem ruleCandidates_pop_none (basket : List ℤ) (rr : List (ℤ × ℚ)) :
    ∀ q ∈ ruleCandidates basket rr, q.2.pop = none := by
  intro q hq
  simp only [ruleCandidates, List.mem_map] at hq
  obtain ⟨p, _, rfl⟩ := hq
  rfl

theorem addPops_not_in_basket (basket : List ℤ) :
    ∀ (pop : List (ℤ × ℚ × PopSrc)) (cs : List (ℤ × Comp)),
      (∀ q ∈ cs, q.1 ∉ basket) →
      ∀ q ∈ addPops basket cs pop, q.1 ∉ basket := by
  intro pop
  induction pop with
  | nil => intro cs h; exact h
  | cons row rest ih =>
    intro cs h
    obtain ⟨iid, score, src⟩ := row
    simp only [addPops]
    split_ifs with hb
    · exact ih cs h
    · apply ih
      intro q hq
      rcases setPop_mem iid score cs q hq with hmem | ⟨hq1, _, _⟩
      · exact h q hmem
      · rw [hq1]; exact hb

theorem addPops_inv (basket : List ℤ) (K : List ℤ) :
    ∀ (pop : List (ℤ × ℚ × PopSrc)) (cs : List (ℤ × Comp)),
      (∀ row ∈ pop, row.1 ∉ K) →
      (∀ q ∈ cs, q.2.rule.isSome → q.1 ∈ K) →
      (∀ q ∈ cs, ¬(q.2.rule.isSome ∧ q.2.pop.isSome)) →
      (∀ q ∈ addPops basket cs pop, q.2.rule.isSome → q.1 ∈ K) ∧
      (∀ q ∈ addPops basket cs pop, ¬(q.2.rule.isSome ∧ q.2.pop.isSome)) := by
  intro pop
  induction pop with
  | nil => intro cs _ h1 h2; exact ⟨h1, h2⟩
  | cons row rest ih =>
    intro cs hpop h1 h2
    obtain ⟨iid, score, src⟩ := row
    have hiid : iid ∉ K := hpop (iid, score, src) (List.mem_cons_self _ _)
    simp only [addPops]
    split_ifs with hb
    · exact ih cs (fun r hr => hpop r (List.mem_cons_of_mem _ hr)) h1 h2
    · apply ih
      · exact fun r hr => hpop r (List.mem_cons_of_mem _ hr)
      · intro q hq hrule
        rcases setPop_mem iid score cs q hq with h | ⟨hq1, hq2, hq3⟩
        · exact h1 q h hrule
        · rcases hq3 with h3 | ⟨c₀, hc₀, hr⟩
          · rw [h3] at hrule; simp at hrule
          · rw [hr] at hrule
            exact absurd (h1 (iid, c₀) hc₀ hrule) hiid
      · intro q hq hboth
        obtain ⟨hrule, hpops⟩ := hboth
        rcases setPop_mem iid score cs q hq with h | ⟨hq1, hq2, hq3⟩
        · exact h2 q h ⟨hrule, hpops⟩
        · rcases hq3 with h3 | ⟨c₀, hc₀, hr⟩
          · rw [h3] at hrule; simp at hrule
          · rw [hr] at hrule
            exact hiid (h1 (iid, c₀) hc₀ hrule)

theorem candidate_scores_keys_nodup (basket : List ℤ) (rules_dict : List (ℤ × ℚ))
    (pop : List (ℤ × ℚ × PopSrc)) (hnodup : (rules_dict.map Prod.fst).Nodup) :
    ((candidate_scores basket rules_dict pop).map Prod.fst).Nodup := by
  apply addPops_keys_nodup
  have hperm : (ranked_rules rules_dict).Perm rules_dict :=
    List.mergeSort_perm rules_dict _
  have h1 : ((ranked_rules rules_dict).map Prod.fst).Nodup :=
    ((hperm.map Prod.fst).nodup_iff).mpr hnodup
  have h2 : (ruleCandidates basket (ranked_rules rules_dict)).map Prod.fst =
      ((ranked_rules rules_dict).filter
        (fun p => decide (p.1 ∉ basket))).map Prod.fst := by
    simp [ruleCandidates, List.map_map, Function.comp]
  rw [h2]
  exact (((List.filter_sublist _)).map Prod.fst).nodup h1

theorem nodup_keys_unique {β : Type} :
    ∀ {cs : List (ℤ × β)}, (cs.map Prod.fst).Nodup →
      ∀ q ∈ cs, ∀ q' ∈ cs, q.1 = q'.1 → q = q' := by
  intro cs
  induction cs with
  | nil => intro _ q hq; simp at hq
  | cons p rest ih =>
    intro h q hq q' hq' heq
    simp only [List.map_cons, List.nodup_cons] at h
    rcases List.mem_cons.mp hq with rfl | hq2 <;>
      rcases List.mem_cons.mp hq' with rfl | hq2'
    · rfl
    · exact absurd (heq ▸ List.mem_map_of_mem Prod.fst hq2') h.1
    · exact absurd (heq ▸ List.mem_map_of_mem Prod.fst hq2) h.1
    · exact ih h.2 q hq2 q' hq2' heq

theorem filterMap_comp_keys (f : Comp → Option ℚ) {cs : List (ℤ × Comp)} {k : ℤ} :
    (k ∈ (cs.filterMap (fun q => (f q.2).map (fun r => (q.1, r)))).map Prod.fst) ↔
      ∃ q ∈ cs, q.1 = k ∧ (f q.2).isSome := by
  constructor
  · intro hk
    rw [List.mem_map] at hk
    obtain ⟨x, hx, hxk⟩ := hk
    rw [List.mem_filterMap] at hx
    obtain ⟨q, hq, hfq⟩ := hx
    obtain ⟨r, hr, hb⟩ := Option.map_eq_some'.mp hfq
    subst hb
    exact ⟨q, hq, hxk, by simp [hr]⟩
  · rintro ⟨q, hq, hk, hsome⟩
    obtain ⟨r, hr⟩ := Option.isSome_iff_exists.mp hsome
    subst hk
    exact List.mem_map.mpr
      ⟨(q.1, r), List.mem_filterMap.mpr ⟨q, hq, by simp [hr]⟩, rfl⟩

theorem warm_norm_lookup_none (f : Comp → Option ℚ) {cs : List (ℤ × Comp)}
    (hnodup : (cs.map Prod.fst).Nodup) {q : ℤ × Comp} (hq : q ∈ cs)
    (hnone : ¬ (f q.2).isSome) :
    dictGetD (minmax_dict
      (cs.filterMap (fun p => (f p.2).map (fun r => (p.1, r))))) q.1 0 = 0 := by
  unfold dictGetD
  rw [dictGet_eq_none, Option.getD_none]
  rw [minmax_dict_keys]
  intro hmem
  obtain ⟨q', hq', hk, hsome⟩ := (filterMap_comp_keys f).mp hmem
  have hqq : q' = q := nodup_keys_unique hnodup q' hq' q hq hk
  exact hnone (hqq ▸ hsome)

theorem rule_norm_lookup_none {cs : List (ℤ × Comp)}
    (hnodup : (cs.map Prod.fst).Nodup) {q : ℤ × Comp} (hq : q ∈ cs)
    (hnone : ¬ q.2.rule.isSome) :
    dictGetD (minmax_dict (rule_scores cs)) q.1 0 = 0 := by
  unfold rule_scores
  exact warm_norm_lookup_none Comp.rule hnodup hq hnone

theorem pop_norm_lookup_none {cs : List (ℤ × Comp)}
    (hnodup : (cs.map Prod.fst).Nodup) {q : ℤ × Comp} (hq : q ∈ cs)
    (hnone : ¬ q.2.pop.isSome) :
    dictGetD (minmax_dict (pop_scores cs)) q.1 0 = 0 := by
  unfold pop_scores
  exact warm_norm_lookup_none Comp.pop hnodup hq hnone

theorem warm_le_trans : ∀ (a b c : WarmRec),
    decide (b.final_score ≤ a.final_score) = true →
    decide (c.final_score ≤ b.final_score) = true →
    decide (c.final_score ≤ a.final_score) = true := by
  intro a b c hab hbc
  rw [decide_eq_true_eq] at hab hbc ⊢
  exact le_trans hbc hab

theorem warm_le_total : ∀ (a b : WarmRec),
    (decide (b.final_score ≤ a.final_score) ||
      decide (a.final_score ≤ b.final_score)) = true := by
  intro a b
  rcases le_total b.final_score a.final_score with h | h
  · simp [h]
  · simp [h]

theorem warmResults_fields (catalog : List (ℤ × String)) (alpha : ℚ)
    (rule_norm pop_norm : List (ℤ × ℚ)) (cs : List (ℤ × Comp)) :
    ∀ r ∈ warmResults catalog alpha rule_norm pop_norm cs,
      ∃ q ∈ cs, r.item_id = q.1 ∧
        r.final_score = alpha * dictGetD rule_norm q.1 0 +
          (1 - alpha) * dictGetD pop_norm q.1 0 ∧
        r.rule_norm =
          (if q.2.rule.isSome then some (dictGetD rule_norm q.1 0) else none) ∧
        r.pop_norm =
          (if q.2.pop.isSome then some (dictGetD pop_norm q.1 0) else none) ∧
        r.source =
          (if q.2.rule.isSome then RecSource.rules else RecSource.popularity) := by
  intro r hr
  simp only [warmResults, List.mem_map] at hr
  obtain ⟨q, hq, rfl⟩ := hr
  exact ⟨q, hq, rfl, rfl, rfl, rfl, rfl⟩

/-! ### Claim C5: warm-start blending, sorting and tagging -/

/-- C5: in warm-start mode (non-empty basket, `rules_dict` a dict so its keys
are distinct), every returned record's final score equals
`α·rule_norm + (1−α)·pop_norm` with `0.0` substituted for a missing component;
the returned list is sorted descending by final score and truncated to
`top_n`; and a record's source tag is `"rules"` exactly when its candidate has
a rule component (equivalently, when its `rule_norm` field is populated). -/
theorem c5_warm_recommend_scoring (catalog : List (ℤ × String)) (basket : List ℤ)
    (rules_dict : List (ℤ × ℚ)) (pop : List (ℤ × ℚ × PopSrc)) (top_n : Nat)
    (hbasket : basket ≠ []) (hnodup : (rules_dict.map Prod.fst).Nodup) :
    (warm_recommend catalog basket rules_dict pop top_n).length ≤ top_n ∧
    (warm_recommend catalog basket rules_dict pop top_n).Pairwise
      (fun x y => y.final_score ≤ x.final_score) ∧
    (∀ r ∈ warm_recommend catalog basket rules_dict pop top_n,
      r.final_score = warm_alpha basket.length * r.rule_norm.getD 0 +
        (1 - warm_alpha basket.length) * r.pop_norm.getD 0) ∧
    (∀ r ∈ warm_recommend catalog basket rules_dict pop top_n,
      r.source = RecSource.rules ↔ r.rule_norm.isSome) := by
  have hkeys : ((candidate_scores basket rules_dict pop).map Prod.fst).Nodup :=
    candidate_scores_keys_nodup basket rules_dict pop hnodup
  refine ⟨?_, ?_, ?_, ?_⟩
  · simp only [warm_recommend]
    rw [List.length_take]
    exact min_le_left _ _
  · simp only [warm_recommend]
    apply List.Pairwise.sublist (List.take_sublist _ _)
    have hs := List.sorted_mergeSort warm_le_trans warm_le_total
      (warmResults catalog (warm_alpha basket.length)
        (minmax_dict (rule_scores (candidate_scores basket rules_dict pop)))
        (minmax_dict (pop_scores (candidate_scores basket rules_dict pop)))
        (candidate_scores basket rules_dict pop))
    exact hs.imp (fun h => decide_eq_true_eq.mp h)
  · intro r hr
    simp only [warm_recommend] at hr
    have hr2 := List.mem_of_mem_take hr
    rw [(List.mergeSort_perm _ _).mem_iff] at hr2
    obtain ⟨q, hq, hid, hfs, hrn, hpn, hsrc⟩ := warmResults_fields _ _ _ _ _ r hr2
    have e1 : dictGetD
        (minmax_dict (rule_scores (candidate_scores basket rules_dict pop))) q.1 0
        = r.rule_norm.getD 0 := by
      by_cases hrl : q.2.rule.isSome
      · rw [hrn, if_pos hrl, Option.getD_some]
      · rw [hrn, if_neg hrl, Option.getD_none]
        exact rule_norm_lookup_none hkeys hq hrl
    have e2 : dictGetD
        (minmax_dict (pop_scores (candidate_scores basket rules_dict pop))) q.1 0
        = r.pop_norm.getD 0 := by
      by_cases hpl : q.2.pop.isSome
      · rw [hpn, if_pos hpl, Option.getD_some]
      · rw [hpn, if_neg hpl, Option.getD_none]
        exact pop_norm_lookup_none hkeys hq hpl
    rw [hfs, e1, e2]
  · intro r hr
    simp only [warm_recommend] at hr
    have hr2 := List.mem_of_mem_take hr
    rw [(List.mergeSort_perm _ _).mem_iff] at hr2
    obtain ⟨q, hq, hid, hfs, hrn, hpn, hsrc⟩ := warmResults_fields _ _ _ _ _ r hr2
    by_cases hrl : q.2.rule.isSome
    · rw [hsrc, if_pos hrl, hrn, if_pos hrl]
      simp
    · rw [hsrc, if_neg hrl, hrn, if_neg hrl]
      simp

/-- Witness for C5 at a concrete warm-start input. -/
theorem c5_warm_recommend_witness :
    ([(10:ℤ)] : List ℤ) ≠ [] ∧
    (([((20:ℤ), (9:ℚ))] : List (ℤ × ℚ)).map Prod.fst).Nodup ∧
    (warm_recommend [] [(10:ℤ)] [((20:ℤ), (9:ℚ))]
      [((40:ℤ), (50:ℚ), PopSrc.region)] 5).length ≤ 5 :=
  ⟨by simp, by simp,
   (c5_warm_recommend_scoring [] [(10:ℤ)] [((20:ℤ), (9:ℚ))]
     [((40:ℤ), (50:ℚ), PopSrc.region)] 5 (by simp) (by simp)).1⟩

/-! ### Claim C6: basket items never appear in the output -/

/-- C6: for every basket state and every `top_n`, no item id contained in the
basket appears in `recommend`'s output, in either mode, assuming the
popularity collaborator honors its exclusion list (its rows contain no id of
the basket it was asked to exclude). -/
theorem c6_basket_invariant (catalog : List (ℤ × String)) (basket : List ℤ)
    (rules_dict : List (ℤ × ℚ)) (pop : List (ℤ × ℚ × PopSrc)) (top_n : Nat)
    (hpop : ∀ row ∈ pop, row.1 ∉ basket) :
    ∀ i ∈ basket, i ∉ outputIds (recommend catalog basket rules_dict pop top_n) := by
  intro i hi
  unfold recommend
  split_ifs with hb
  · subst hb
    simp at hi
  · simp only [outputIds]
    intro hcontra
    rw [List.mem_map] at hcontra
    obtain ⟨r, hr, hid⟩ := hcontra
    simp only [warm_recommend] at hr
    have hr2 := List.mem_of_mem_take hr
    rw [(List.mergeSort_perm _ _).mem_iff] at hr2
    obtain ⟨q, hq, hidq, _, _, _, _⟩ := warmResults_fields _ _ _ _ _ r hr2
    have hnotin : q.1 ∉ basket := by
      unfold candidate_scores at hq
      exact addPops_not_in_basket basket pop _
        (ruleCandidates_not_in_basket basket _) q hq
    exact hnotin (by rw [← hidq, hid]; exact hi)

/-- Witness for C6 at a concrete warm-start input with basket `{10}`. -/
theorem c6_basket_invariant_witness :
    (10:ℤ) ∈ [(10:ℤ)] ∧
    (10:ℤ) ∉ outputIds (recommend [] [(10:ℤ)] [((20:ℤ), (9:ℚ))]
      [((40:ℤ), (50:ℚ), PopSrc.region)] 5) :=
  ⟨by simp,
   c6_basket_invariant [] [(10:ℤ)] [((20:ℤ), (9:ℚ))]
     [((40:ℤ), (50:ℚ), PopSrc.region)] 5 (by decide) 10 (by simp)⟩

/-! ### Claim C9: at most one signal component per candidate -/

/-- C9: in warm-start mode, assuming the popularity fetch honors its exclusion
list (no returned id is in the basket or among the already-found rule
candidates), every candidate carries at most one signal component; hence in
every output record at most one of `rule_norm` / `pop_norm` is populated, and
every final score reduces to `α·rule_norm` or `(1−α)·pop_norm`. -/
theorem c9_warm_single_component (catalog : List (ℤ × String)) (basket : List ℤ)
    (rules_dict : List (ℤ × ℚ)) (pop : List (ℤ × ℚ × PopSrc)) (top_n : Nat)
    (hbasket : basket ≠ []) (hnodup : (rules_dict.map Prod.fst).Nodup)
    (hexcl : ∀ row ∈ pop, row.1 ∉ basket ∧
      row.1 ∉ (ruleCandidates basket (ranked_rules rules_dict)).map Prod.fst) :
    (∀ q ∈ candidate_scores basket rules_dict pop,
      ¬(q.2.rule.isSome ∧ q.2.pop.isSome)) ∧
    (∀ r ∈ warm_recommend catalog basket rules_dict pop top_n,
      ¬(r.rule_norm.isSome ∧ r.pop_norm.isSome)) ∧
    (∀ r ∈ warm_recommend catalog basket rules_dict pop top_n,
      r.final_score = warm_alpha basket.length * r.rule_norm.getD 0 ∨
      r.final_score = (1 - warm_alpha basket.length) * r.pop_norm.getD 0) := by
  have hkeys : ((candidate_scores basket rules_dict pop).map Prod.fst).Nodup :=
    candidate_scores_keys_nodup basket rules_dict pop hnodup
  have hmain := addPops_inv basket
    ((ruleCandidates basket (ranked_rules rules_dict)).map Prod.fst) pop
    (ruleCandidates basket (ranked_rules rules_dict))
    (fun row hrow => (hexcl row hrow).2)
    (fun q hq _ => List.mem_map_of_mem Prod.fst hq)
    (fun q hq hboth => by
      rw [ruleCandidates_pop_none basket _ q hq] at hboth
      simp at hboth)
  have hone : ∀ q ∈ candidate_scores basket rules_dict pop,
      ¬(q.2.rule.isSome ∧ q.2.pop.isSome) := hmain.2
  refine ⟨hone, ?_, ?_⟩
  · intro r hr
    simp only [warm_recommend] at hr
    have hr2 := List.mem_of_mem_take hr
    rw [(List.mergeSort_perm _ _).mem_iff] at hr2
    obtain ⟨q, hq, _, _, hrn, hpn, _⟩ := warmResults_fields _ _ _ _ _ r hr2
    intro hboth
    obtain ⟨h1, h2⟩ := hboth
    by_cases hrl : q.2.rule.isSome
    · by_cases hpl : q.2.pop.isSome
      · exact hone q hq ⟨hrl, hpl⟩
      · rw [hpn, if_neg hpl] at h2
        simp at h2
    · rw [hrn, if_neg hrl] at h1
      simp at h1
  · intro r hr
    simp only [warm_recommend] at hr
    have hr2 := List.mem_of_mem_take hr
    rw [(List.mergeSort_perm _ _).mem_iff] at hr2
    obtain ⟨q, hq, hid, hfs, hrn, hpn, _⟩ := warmResults_fields _ _ _ _ _ r hr2
    by_cases hrl : q.2.rule.isSome
    · have hpl : ¬ q.2.pop.isSome := fun hpl => hone q hq ⟨hrl, hpl⟩
      left
      rw [hfs, hrn, if_pos hrl, Option.getD_some,
        pop_norm_lookup_none hkeys hq hpl]
      ring
    · right
      rw [hfs, hpn, rule_norm_lookup_none hkeys hq hrl]
      by_cases hpl : q.2.pop.isSome
      · rw [if_pos hpl, Option.getD_some]
        ring
      · rw [if_neg hpl, Option.getD_none,
          pop_norm_lookup_none hkeys hq hpl]
        ring

/-- Witness for C9: empty rule fetch, one popularity row; the resulting
candidate carries only a pop component. -/
theorem c9_warm_single_component_witness :
    ((40:ℤ), (⟨none, some (50:ℚ)⟩ : Comp)) ∈
      candidate_scores [(10:ℤ)] [] [((40:ℤ), (50:ℚ), PopSrc.region)] ∧
    ¬((⟨none, some (50:ℚ)⟩ : Comp).rule.isSome ∧
      (⟨none, some (50:ℚ)⟩ : Comp).pop.isSome) :=
  ⟨by simp [candidate_scores, ruleCandidates, ranked_rules, List.mergeSort_nil,
      addPops, setPop],
   (c9_warm_single_component [] [(10:ℤ)] [] [((40:ℤ), (50:ℚ), PopSrc.region)] 5
     (by simp) (by simp) (by simp [ruleCandidates, ranked_rules, List.mergeSort_nil])).1
     ((40:ℤ), (⟨none, some (50:ℚ)⟩ : Comp))
     (by simp [candidate_scores, ruleCandidates, ranked_rules, List.mergeSort_nil,
       addPops, setPop])⟩

/-! ### Claim C8: error propagation and in-memory state -/

/-- C8 counterexample: starting from an empty basket, `add_item 5` against a
failing collaborator propagates the data-unavailable error to the caller, yet
the engine's basket has already been mutated to `{5}` — the prior in-memory
basket is NOT preserved (the mutation happens before the failing fetch). -/
theorem c8_state_preservation_counterexample :
    (add_item ⟨"GLOBAL", [], []⟩ 5
        ⟨Except.error (DBError.dataUnavailable "connection failed"),
         Except.error (DBError.dataUnavailable "connection failed")⟩ 15).2 =
      Except.error (DBError.dataUnavailable "connection failed") ∧
    (add_item ⟨"GLOBAL", [], []⟩ 5
        ⟨Except.error (DBError.dataUnavailable "connection failed"),
         Except.error (DBError.dataUnavailable "connection failed")⟩ 15).1.basket
      ≠ ([] : List ℤ) := by
  constructor
  · rfl
  · simp [add_item, basketAdd]

/-- C8 (amended): a data-unavailable failure of a recommendation call is
propagated to the caller and always originates from the rule or popularity
collaborator, and the catalog (`id_to_item`) is never modified; a bare
`recommend()` call leaves the entire state unchanged; but `add_item` /
`remove_item` apply their basket add/discard before fetching, so after a
failing call the basket holds the mutated value (`basketAdd` /
`basketDiscard` applied to the prior basket), not the prior value itself. -/
theorem c8_error_propagation_amended (st : EngineState) (item : ℤ)
    (o : FetchResults) (top_n : Nat) (e : DBError) :
    (recommend_call st o top_n).1 = st ∧
    (add_item st item o top_n).1.id_to_item = st.id_to_item ∧
    (remove_item st item o top_n).1.id_to_item = st.id_to_item ∧
    (add_item st item o top_n).1.basket = basketAdd st.basket item ∧
    (remove_item st item o top_n).1.basket = basketDiscard st.basket item ∧
    (recommendE st o top_n = Except.error e →
      o.rulesResult = Except.error e ∨ o.popResult = Except.error e) := by
  refine ⟨rfl, rfl, rfl, rfl, rfl, ?_⟩
  unfold recommendE
  split_ifs with hb
  · cases hpop : o.popResult with
    | error e' =>
      intro h
      right
      simpa using h
    | ok pop =>
      intro h
      simp at h
  · cases hrl : o.rulesResult with
    | error e' =>
      intro h
      left
      simpa using h
    | ok rules_dict =>
      cases hpop : o.popResult with
      | error e' =>
        intro h
        right
        simpa using h
      | ok pop =>
        intro h
        simp at h

/-- Witness for C8 (amended): a concrete warm-start call whose rule fetch
fails; the error surfaces and is the collaborator's. -/
theorem c8_error_propagation_witness :
    recommendE ⟨"EU", [(7:ℤ)], []⟩
        ⟨Except.error (DBError.dataUnavailable "rules query failed"),
         Except.ok []⟩ 15 =
      Except.error (DBError.dataUnavailable "rules query failed") ∧
    ((⟨Except.error (DBError.dataUnavailable "rules query failed"),
        Except.ok []⟩ : FetchResults).rulesResult =
      Except.error (DBError.dataUnavailable "rules query failed") ∨
     (⟨Except.error (DBError.dataUnavailable "rules query failed"),
        Except.ok []⟩ : FetchResults).popResult =
      Except.error (DBError.dataUnavailable "rules query failed")) :=
  ⟨rfl,
   (c8_error_propagation_amended ⟨"EU", [(7:ℤ)], []⟩ 7
     ⟨Except.error (DBError.dataUnavailable "rules query failed"),
      Except.ok []⟩ 15 (DBError.dataUnavailable "rules query failed")).2.2.2.2.2
     rfl⟩
